import Mathlib

/-!
# Verification of `backups/usb-queue-monitor.py`

Shallow embedding of the USB queue monitor script: the `ReservoirSampler`
class, the `get_inflight` metric read, `calc_percentile`, `make_bar`, the
configuration constants and the startup phase of `main`.  Randomness
(`random.randint`) is modelled by passing the drawn integer explicitly and,
for the statistical contract, by counting over the finite uniform space of
all draw sequences.
-/

namespace UsbQueueMonitor

/-- `DEVICES = ["sdc", "sdd", "sde", "sdf", "sdg"]` from the source. -/
def DEVICES : List String := ["sdc", "sdd", "sde", "sdf", "sdg"]

/-- `SAMPLE_INTERVAL = 0.1` seconds, as an exact rational. -/
def SAMPLE_INTERVAL : ℚ := 1 / 10

/-- `RESERVOIR_SIZE = 10000`. -/
def RESERVOIR_SIZE : ℕ := 10000

/-- `MAX_QUEUE = 30`. -/
def MAX_QUEUE : ℕ := 30

/-- State of `class ReservoirSampler`: `self.size`, `self.reservoir`,
`self.count`.  The element type is a parameter: the script feeds integer
queue depths; the statistical analysis feeds observation ordinals. -/
structure ReservoirSampler (α : Type) where
  size : ℕ
  reservoir : List α
  count : ℕ
  deriving DecidableEq, Repr

variable {α : Type}

/-- `ReservoirSampler.__init__(self, size)`. -/
def ReservoirSampler.mkInit (α : Type) (size : ℕ) : ReservoirSampler α :=
  ⟨size, [], 0⟩

/-- `ReservoirSampler.add(self, value)`.  The integer returned by
`random.randint(0, self.count - 1)` (drawn after the increment, and only in
the replacement branch of the source) is passed as the explicit argument
`j`; the append branch ignores it, exactly as the source draws nothing
there. -/
def ReservoirSampler.add (s : ReservoirSampler α) (value : α) (j : ℕ) :
    ReservoirSampler α :=
  if s.reservoir.length < s.size then
    { s with reservoir := s.reservoir ++ [value], count := s.count + 1 }
  else if j < s.size then
    { s with reservoir := s.reservoir.set j value, count := s.count + 1 }
  else
    { s with count := s.count + 1 }

/-- `ReservoirSampler.get_samples(self)` returns `self.reservoir`. -/
def ReservoirSampler.get_samples (s : ReservoirSampler α) : List α :=
  s.reservoir

/-- `ReservoirSampler.get_count(self)` returns `self.count`. -/
def ReservoirSampler.get_count (s : ReservoirSampler α) : ℕ :=
  s.count

/-- Feed a list of (value, draw) pairs through `add`, left to right: one
`add` call per observation, in stream order. -/
def ReservoirSampler.run (s : ReservoirSampler α) (ops : List (α × ℕ)) :
    ReservoirSampler α :=
  ops.foldl (fun t p => t.add p.1 p.2) s

theorem ReservoirSampler.size_add (s : ReservoirSampler α) (v : α) (j : ℕ) :
    (s.add v j).size = s.size := by
  unfold ReservoirSampler.add
  split <;> [rfl; (split <;> rfl)]

theorem ReservoirSampler.count_add (s : ReservoirSampler α) (v : α) (j : ℕ) :
    (s.add v j).count = s.count + 1 := by
  unfold ReservoirSampler.add
  split <;> [rfl; (split <;> rfl)]

theorem ReservoirSampler.run_append (s : ReservoirSampler α)
    (ops₁ ops₂ : List (α × ℕ)) :
    s.run (ops₁ ++ ops₂) = (s.run ops₁).run ops₂ :=
  List.foldl_append _ _ _ _

theorem ReservoirSampler.run_concat (s : ReservoirSampler α)
    (ops : List (α × ℕ)) (p : α × ℕ) :
    s.run (ops ++ [p]) = (s.run ops).add p.1 p.2 := by
  rw [ReservoirSampler.run_append]
  rfl

theorem ReservoirSampler.size_run (s : ReservoirSampler α)
    (ops : List (α × ℕ)) : (s.run ops).size = s.size := by
  induction ops generalizing s with
  | nil => rfl
  | cons p rest ih =>
      show ((s.add p.1 p.2).run rest).size = s.size
      rw [ih, ReservoirSampler.size_add]

theorem ReservoirSampler.count_run (s : ReservoirSampler α)
    (ops : List (α × ℕ)) : (s.run ops).count = s.count + ops.length := by
  induction ops generalizing s with
  | nil => rfl
  | cons p rest ih =>
      show ((s.add p.1 p.2).run rest).count = s.count + (rest.length + 1)
      rw [ih, ReservoirSampler.count_add]
      omega

theorem ReservoirSampler.length_reservoir_add (s : ReservoirSampler α)
    (v : α) (j : ℕ) (m : ℕ) (h : s.reservoir.length = min m s.size) :
    (s.add v j).reservoir.length = min (m + 1) s.size := by
  unfold ReservoirSampler.add
  split
  · next hlt =>
      have hm : min m s.size = m := by omega
      simp only [List.length_append, List.length_cons, List.length_nil]
      omega
  · next hge =>
      have hm : s.reservoir.length = s.size := by omega
      split
      · simpa [List.length_set] using by omega
      · simpa using by omega

theorem ReservoirSampler.length_reservoir_run (s : ReservoirSampler α)
    (ops : List (α × ℕ)) (m : ℕ) (h : s.reservoir.length = min m s.size) :
    (s.run ops).reservoir.length = min (m + ops.length) s.size := by
  induction ops generalizing s m with
  | nil => simpa using h
  | cons p rest ih =>
      show ((s.add p.1 p.2).run rest).reservoir.length = _
      have h1 := ReservoirSampler.length_reservoir_add s p.1 p.2 m h
      rw [← ReservoirSampler.size_add s p.1 p.2] at h1
      have := ih (s.add p.1 p.2) (m + 1) h1
      rw [ReservoirSampler.size_add] at this
      rw [this]
      simp only [List.length_cons]
      omega

/-- In the trivial regime (all appends), running from a state with enough
spare capacity appends the fed values in order. -/
theorem ReservoirSampler.run_reservoir_of_room (s : ReservoirSampler α)
    (ops : List (α × ℕ)) (h : s.reservoir.length + ops.length ≤ s.size) :
    (s.run ops).reservoir = s.reservoir ++ ops.map Prod.fst := by
  induction ops generalizing s with
  | nil => simp [ReservoirSampler.run]
  | cons p rest ih =>
      show ((s.add p.1 p.2).run rest).reservoir = _
      have hlt : s.reservoir.length < s.size := by
        simp only [List.length_cons] at h; omega
      have hadd : s.add p.1 p.2 =
          { s with reservoir := s.reservoir ++ [p.1], count := s.count + 1 } := by
        unfold ReservoirSampler.add
        rw [if_pos hlt]
      rw [hadd, ih]
      · simp
      · simp only [List.length_append, List.length_cons, List.length_nil]
        simp only [List.length_cons] at h
        omega

/-- C1: one `add(value)` call on a sampler with positive capacity: `count`
(seenCount) is incremented by exactly 1; with room left, `value` is
appended; otherwise, with the draw `j` taken from `[0, count - 1]` for the
post-increment `count`, index `j` is overwritten when `j < size` and the
reservoir is left unchanged when `j ≥ size`. -/
theorem add_step_spec (s : ReservoirSampler ℤ) (v : ℤ) (j : ℕ)
    (hcap : 0 < s.size) (hj : j ≤ s.count) :
    (s.add v j).count = s.count + 1 ∧
    (s.reservoir.length < s.size →
      (s.add v j).reservoir = s.reservoir ++ [v]) ∧
    (¬ s.reservoir.length < s.size → j < s.size →
      (s.add v j).reservoir = s.reservoir.set j v) ∧
    (¬ s.reservoir.length < s.size → ¬ j < s.size →
      (s.add v j).reservoir = s.reservoir) := by
  refine ⟨ReservoirSampler.count_add s v j, ?_, ?_, ?_⟩
  · intro hlt
    unfold ReservoirSampler.add
    rw [if_pos hlt]
  · intro hge hjlt
    unfold ReservoirSampler.add
    rw [if_neg hge, if_pos hjlt]
  · intro hge hjge
    unfold ReservoirSampler.add
    rw [if_neg hge, if_neg hjge]

/-- C1 witness: a concrete full sampler of capacity 2 with a replacing
draw. -/
theorem add_step_spec_witness :
    0 < (⟨2, [4, 7], 5⟩ : ReservoirSampler ℤ).size ∧ 1 ≤ 5 ∧
    (((⟨2, [4, 7], 5⟩ : ReservoirSampler ℤ).add 9 1).count = 5 + 1 ∧
    ((⟨2, [4, 7], 5⟩ : ReservoirSampler ℤ).reservoir.length < 2 →
      ((⟨2, [4, 7], 5⟩ : ReservoirSampler ℤ).add 9 1).reservoir = [4, 7] ++ [9]) ∧
    (¬ (⟨2, [4, 7], 5⟩ : ReservoirSampler ℤ).reservoir.length < 2 → 1 < 2 →
      ((⟨2, [4, 7], 5⟩ : ReservoirSampler ℤ).add 9 1).reservoir =
        List.set [4, 7] 1 9) ∧
    (¬ (⟨2, [4, 7], 5⟩ : ReservoirSampler ℤ).reservoir.length < 2 → ¬ 1 < 2 →
      ((⟨2, [4, 7], 5⟩ : ReservoirSampler ℤ).add 9 1).reservoir = [4, 7])) :=
  ⟨by decide, by decide,
    add_step_spec ⟨2, [4, 7], 5⟩ 9 1 (by decide) (by decide)⟩

/-- C2: for every capacity (zero included) and every finite stream of
`add` calls, after each call (each `take k` prefix) the invariant
`len(samples) = min(seenCount, capacity)` holds and `seenCount` equals
the number of calls made; for capacity 0 the reservoir stays empty. -/
theorem sampler_invariant (size : ℕ) (ops : List (ℤ × ℕ)) (k : ℕ) :
    ((ReservoirSampler.mkInit ℤ size).run (ops.take k)).count =
      min k ops.length ∧
    ((ReservoirSampler.mkInit ℤ size).run (ops.take k)).reservoir.length =
      min ((ReservoirSampler.mkInit ℤ size).run (ops.take k)).count size ∧
    (size = 0 →
      ((ReservoirSampler.mkInit ℤ size).run (ops.take k)).reservoir = []) := by
  have hcount : ((ReservoirSampler.mkInit ℤ size).run (ops.take k)).count =
      min k ops.length := by
    rw [ReservoirSampler.count_run]
    simp [ReservoirSampler.mkInit]
  have hlen : ((ReservoirSampler.mkInit ℤ size).run (ops.take k)).reservoir.length =
      min (min k ops.length) size := by
    have h0 : (ReservoirSampler.mkInit ℤ size).reservoir.length =
        min 0 (ReservoirSampler.mkInit ℤ size).size := by
      simp [ReservoirSampler.mkInit]
    have := ReservoirSampler.length_reservoir_run
      (ReservoirSampler.mkInit ℤ size) (ops.take k) 0 h0
    rw [this]
    simp [ReservoirSampler.mkInit]
  refine ⟨hcount, ?_, ?_⟩
  · rw [hlen, hcount]
  · intro hz
    have : ((ReservoirSampler.mkInit ℤ size).run (ops.take k)).reservoir.length = 0 := by
      rw [hlen, hz]; omega
    exact List.eq_nil_of_length_eq_zero this

/-- C5: with capacity `C > 0` and a stream of at most `C` observations, the
reservoir after feeding the stream is exactly the stream, in order. -/
theorem fill_phase_keeps_stream (C : ℕ) (ops : List (ℤ × ℕ))
    (hC : 0 < C) (hlen : ops.length ≤ C) :
    ((ReservoirSampler.mkInit ℤ C).run ops).get_samples = ops.map Prod.fst := by
  have h := ReservoirSampler.run_reservoir_of_room
    (ReservoirSampler.mkInit ℤ C) ops (by simpa [ReservoirSampler.mkInit])
  simpa [ReservoirSampler.get_samples, ReservoirSampler.mkInit] using h

/-- C5 witness: two observations into a capacity-3 sampler come back in
stream order. -/
theorem fill_phase_keeps_stream_witness :
    0 < 3 ∧ ([((5 : ℤ), 0), (7, 1)] : List (ℤ × ℕ)).length ≤ 3 ∧
    ((ReservoirSampler.mkInit ℤ 3).run [((5 : ℤ), 0), (7, 1)]).get_samples =
      ([((5 : ℤ), 0), (7, 1)] : List (ℤ × ℕ)).map Prod.fst :=
  ⟨by decide, by decide,
    fill_phase_keeps_stream 3 [(5, 0), (7, 1)] (by decide) (by decide)⟩

/-- Python `int()` applied to an exact number: truncation toward zero. -/
def intTrunc (q : ℚ) : ℤ :=
  if 0 ≤ q then ⌊q⌋ else -⌊-q⌋

/-- `calc_percentile(data, pct)` from the source.  Python's `sorted` is
modelled by `List.insertionSort (· ≤ ·)`: over integers with a total
antisymmetric order the ascending sorted permutation is unique, so any
sort agrees with CPython's.  The quotient `len * pct / 100` is exact
rational arithmetic and `int(...)` truncates toward zero. -/
def calc_percentile (data : List ℤ) (pct : ℚ) : ℤ :=
  if data = [] then 0
  else
    let sorted_data := data.insertionSort (· ≤ ·)
    let idx := intTrunc ((sorted_data.length : ℚ) * pct / 100)
    let idx2 := max 0 (min idx ((sorted_data.length : ℤ) - 1))
    sorted_data.getD idx2.toNat 0

theorem intTrunc_of_nonneg {q : ℚ} (h : 0 ≤ q) : intTrunc q = ⌊q⌋ :=
  if_pos h

theorem insertionSort_eq_of_sorted_perm {data sorted : List ℤ}
    (hperm : sorted.Perm data) (hsort : sorted.Sorted (· ≤ ·)) :
    data.insertionSort (· ≤ ·) = sorted :=
  List.eq_of_perm_of_sorted
    ((List.perm_insertionSort (· ≤ ·) data).trans hperm.symm)
    (List.sorted_insertionSort (· ≤ ·) data) hsort

/-- C4: `calc_percentile` is the nearest-rank estimator: 0 on the empty
list; otherwise the entry of the ascending sort at index
`⌊len * pct / 100⌋` clamped to `[0, len - 1]` (for `0 ≤ pct ≤ 100` the
lower clamp is inactive, so the index is `min ⌊len * pct / 100⌋ (len-1)`);
in particular a singleton always yields its element, and the P90 of
`[1, …, 10]` is 10. -/
theorem percentile_nearest_rank (data : List ℤ) (pct : ℚ) (sorted : List ℤ)
    (h0 : 0 ≤ pct) (h100 : pct ≤ 100) (hperm : sorted.Perm data)
    (hsort : sorted.Sorted (· ≤ ·)) :
    calc_percentile [] pct = 0 ∧
    (data ≠ [] → calc_percentile data pct =
      sorted.getD
        (min ⌊(data.length : ℚ) * pct / 100⌋ ((data.length : ℤ) - 1)).toNat 0) ∧
    calc_percentile [5] pct = 5 ∧
    calc_percentile [1, 2, 3, 4, 5, 6, 7, 8, 9, 10] 90 = 10 := by
  have hq : ∀ n : ℕ, (0 : ℚ) ≤ (n : ℚ) * pct / 100 := fun n =>
    div_nonneg (mul_nonneg (by positivity) h0) (by norm_num)
  refine ⟨by simp [calc_percentile], ?_, ?_, ?_⟩
  · intro hne
    have hsorteq := insertionSort_eq_of_sorted_perm hperm hsort
    have hlen : sorted.length = data.length := hperm.length_eq
    have hlen1 : 1 ≤ data.length := by
      cases data with
      | nil => exact absurd rfl hne
      | cons a l => simp
    have hfloor : (0 : ℤ) ≤ ⌊(data.length : ℚ) * pct / 100⌋ :=
      Int.floor_nonneg.2 (hq data.length)
    have hmax : max 0 (min ⌊(data.length : ℚ) * pct / 100⌋
        ((data.length : ℤ) - 1)) =
        min ⌊(data.length : ℚ) * pct / 100⌋ ((data.length : ℤ) - 1) := by
      have : (0 : ℤ) ≤ (data.length : ℤ) - 1 := by
        have := hlen1; omega
      omega
    simp only [calc_percentile, if_neg hne, hsorteq, hlen,
      intTrunc_of_nonneg (hq data.length), hmax]
  · have h1 : calc_percentile [5] pct =
        [(5 : ℤ)].getD (max 0 (min (intTrunc ((1 : ℚ) * pct / 100))
          ((1 : ℤ) - 1))).toNat 0 := by
      simp [calc_percentile, List.insertionSort]
    rw [h1]
    have hmin : min (intTrunc ((1 : ℚ) * pct / 100)) ((1 : ℤ) - 1) ≤ 0 := by
      have := min_le_right (intTrunc ((1 : ℚ) * pct / 100)) ((1 : ℤ) - 1)
      omega
    have : (max 0 (min (intTrunc ((1 : ℚ) * pct / 100)) ((1 : ℤ) - 1))).toNat
        = 0 := by omega
    rw [this]
    rfl
  · have hsort : List.insertionSort (· ≤ ·)
        [(1 : ℤ), 2, 3, 4, 5, 6, 7, 8, 9, 10] =
        [1, 2, 3, 4, 5, 6, 7, 8, 9, 10] := by decide
    simp only [calc_percentile, hsort]
    norm_num [intTrunc, List.getD]
    decide

/-- C4 witness: `data = [3, 1, 2]`, `pct = 50`, with its ascending sort
`[1, 2, 3]`: the nearest-rank index is `min ⌊3·50/100⌋ 2 = 1` and the
returned value is 2. -/
theorem percentile_nearest_rank_witness :
    (0 : ℚ) ≤ 50 ∧ (50 : ℚ) ≤ 100 ∧
    ([(1 : ℤ), 2, 3].Perm [3, 1, 2]) ∧
    ([(1 : ℤ), 2, 3].Sorted (· ≤ ·)) ∧
    (calc_percentile [] 50 = 0 ∧
    (([(3 : ℤ), 1, 2]) ≠ [] → calc_percentile [3, 1, 2] 50 =
      [(1 : ℤ), 2, 3].getD
        (min ⌊(([(3 : ℤ), 1, 2].length : ℚ)) * 50 / 100⌋
          ((([(3 : ℤ), 1, 2].length : ℤ)) - 1)).toNat 0) ∧
    calc_percentile [5] 50 = 5 ∧
    calc_percentile [1, 2, 3, 4, 5, 6, 7, 8, 9, 10] 90 = 10) ∧
    calc_percentile [3, 1, 2] 50 = 2 :=
  ⟨by norm_num, by norm_num, by decide, by decide,
    percentile_nearest_rank [3, 1, 2] 50 [1, 2, 3] (by norm_num) (by norm_num)
      (by decide) (by decide), by
        have hsort : List.insertionSort (· ≤ ·) [(3 : ℤ), 1, 2] = [1, 2, 3] :=
          by decide
        simp only [calc_percentile, hsort]
        norm_num [intTrunc, List.getD]
        decide⟩

/-- C9: `calc_percentile` is total over every list and every rational
`pct`, in-range or not (the embedding returns a value for all inputs), and
on a non-empty list the clamped index stays in `[0, len - 1]`, so the
result is an element of the input list. -/
theorem percentile_mem_of_ne_nil (data : List ℤ) (pct : ℚ)
    (hne : data ≠ []) : calc_percentile data pct ∈ data := by
  have hlen1 : 1 ≤ data.length := by
    cases data with
    | nil => exact absurd rfl hne
    | cons a l => simp
  have hlensort : (data.insertionSort (· ≤ ·)).length = data.length :=
    (List.perm_insertionSort (· ≤ ·) data).length_eq
  set L := data.insertionSort (· ≤ ·) with hL
  set idx := intTrunc ((L.length : ℚ) * pct / 100) with hidx
  set idx2 := max 0 (min idx ((L.length : ℤ) - 1)) with hidx2
  have hlt : idx2.toNat < L.length := by
    have h1 : min idx ((L.length : ℤ) - 1) ≤ (L.length : ℤ) - 1 :=
      min_le_right _ _
    have h2 : (1 : ℤ) ≤ (L.length : ℤ) := by
      rw [hlensort]; exact_mod_cast hlen1
    omega
  have hval : calc_percentile data pct = L.getD idx2.toNat 0 := by
    simp only [calc_percentile, if_neg hne]
  rw [hval, List.getD_eq_getElem L 0 hlt]
  exact (List.perm_insertionSort (· ≤ ·) data).mem_iff.1 (L.getElem_mem hlt)

/-- C9 witness: an out-of-range negative percentile on a concrete list
still returns a member of the list. -/
theorem percentile_mem_of_ne_nil_witness :
    ([(7 : ℤ), 4] ≠ []) ∧ calc_percentile [7, 4] (-50) ∈ [(7 : ℤ), 4] :=
  ⟨by decide, percentile_mem_of_ne_nil [7, 4] (-50) (by decide)⟩

/-- Python's `sorted(data)`: allocates and returns a fresh sorted list.
The heap effect on the argument is made explicit: the result is paired
with the argument's state after the call, which `sorted` (unlike the
in-place `list.sort`) leaves untouched. -/
def sortedPy (data : List ℤ) : List ℤ × List ℤ :=
  (data.insertionSort (· ≤ ·), data)

/-- `calc_percentile` with the heap effect on its `data` argument made
explicit, threading the list state through the `sorted(data)` call:
returns (result, final state of `data`). -/
def calc_percentile_effect (data : List ℤ) (pct : ℚ) : ℤ × List ℤ :=
  if data = [] then (0, data)
  else
    let p := sortedPy data
    let sorted_data := p.1
    let idx := intTrunc ((sorted_data.length : ℚ) * pct / 100)
    let idx2 := max 0 (min idx ((sorted_data.length : ℤ) - 1))
    (sorted_data.getD idx2.toNat 0, p.2)

/-- C10: `calc_percentile` does not mutate its input: the explicit-effect
version returns the argument list unchanged while computing the same
result, so estimating a percentile over `get_samples()` (which aliases the
sampler's reservoir) leaves the sampler's state exactly as it was. -/
theorem percentile_leaves_input_unchanged (data : List ℤ) (pct : ℚ)
    (s : ReservoirSampler ℤ) :
    (calc_percentile_effect data pct).2 = data ∧
    (calc_percentile_effect data pct).1 = calc_percentile data pct ∧
    { s with reservoir := (calc_percentile_effect s.get_samples pct).2 } = s := by
  refine ⟨?_, ?_, ?_⟩
  · by_cases h : data = [] <;>
      simp [calc_percentile_effect, sortedPy, h]
  · by_cases h : data = [] <;>
      simp [calc_percentile_effect, calc_percentile, sortedPy, h]
  · have h2 : (calc_percentile_effect s.get_samples pct).2 = s.get_samples := by
      by_cases h : s.get_samples = [] <;>
        simp [calc_percentile_effect, sortedPy, h]
    rw [h2]
    rfl

/-- Accumulator for `pySplit`: `cur` is the (reversed) token being built. -/
def pySplitGo (cur : List Char) : List Char → List (List Char)
  | [] => if cur = [] then [] else [cur.reverse]
  | c :: cs =>
    if c.isWhitespace then
      if cur = [] then pySplitGo [] cs else cur.reverse :: pySplitGo [] cs
    else pySplitGo (c :: cur) cs

/-- Python `str.split()` with no separator, over the content as a list of
characters: split on runs of whitespace, producing no empty tokens.  This
also subsumes the preceding `.strip()` in the source, which only removes
leading and trailing whitespace that `split()` would discard anyway. -/
def pySplit (cs : List Char) : List (List Char) :=
  pySplitGo [] cs

/-- Decimal value of a digit run; `none` as soon as a non-digit occurs. -/
def digitsValAux (acc : ℕ) : List Char → Option ℕ
  | [] => some acc
  | c :: cs =>
    if c.isDigit then digitsValAux (10 * acc + (c.toNat - 48)) cs else none

/-- Python `int(token)` on a whitespace-free token: an optional sign
followed by at least one decimal digit; anything else raises `ValueError`,
modelled as `none`. -/
def pyInt : List Char → Option ℤ
  | [] => none
  | '+' :: cs =>
    if cs = [] then none else (digitsValAux 0 cs).map (fun n => (n : ℤ))
  | '-' :: cs =>
    if cs = [] then none else (digitsValAux 0 cs).map (fun n => -(n : ℤ))
  | cs => (digitsValAux 0 cs).map (fun n => (n : ℤ))

/-- `get_inflight(device)` with the content of
`/sys/block/{device}/inflight` passed explicitly: `none` models
`FileNotFoundError`; fewer than two tokens raises `IndexError`; a failing
`int()` raises `ValueError`; every handler returns 0, so the read is total
and no error reaches the caller. -/
def get_inflight (content : Option (List Char)) : ℤ :=
  match content with
  | none => 0
  | some s =>
    match pySplit s with
    | p0 :: p1 :: _ =>
      match pyInt p0, pyInt p1 with
      | some a, some b => a + b
      | _, _ => 0
    | _ => 0

/-- The collect pass of one loop tick
(`for dev in DEVICES: samplers[dev].add(get_inflight(dev))`): `samplers`
is the global dict, `contents dev` the current content of the device's
pseudo-file (or `none` when missing), `jdraw dev` that device's
`random.randint` draw. -/
def collectTick (samplers : String → ReservoirSampler ℤ)
    (contents : String → Option (List Char)) (jdraw : String → ℕ)
    (devs : List String) : String → ReservoirSampler ℤ :=
  devs.foldl
    (fun m dev =>
      Function.update m dev
        ((m dev).add (get_inflight (contents dev)) (jdraw dev)))
    samplers

theorem collectTick_of_not_mem (samplers : String → ReservoirSampler ℤ)
    (contents : String → Option (List Char)) (jdraw : String → ℕ)
    (devs : List String) (d : String) (hd : d ∉ devs) :
    collectTick samplers contents jdraw devs d = samplers d := by
  induction devs generalizing samplers with
  | nil => rfl
  | cons dev rest ih =>
      have hne : d ≠ dev := fun h => hd (h ▸ List.mem_cons_self dev rest)
      have hnr : d ∉ rest := fun h => hd (List.mem_cons_of_mem dev h)
      show collectTick (Function.update samplers dev _) contents jdraw rest d = _
      rw [ih _ hnr, Function.update_noteq hne]

theorem collectTick_of_mem (samplers : String → ReservoirSampler ℤ)
    (contents : String → Option (List Char)) (jdraw : String → ℕ)
    (devs : List String) (d : String) (hnd : devs.Nodup) (hd : d ∈ devs) :
    collectTick samplers contents jdraw devs d =
      (samplers d).add (get_inflight (contents d)) (jdraw d) := by
  induction devs generalizing samplers with
  | nil => exact absurd hd (List.not_mem_nil d)
  | cons dev rest ih =>
      show collectTick (Function.update samplers dev _) contents jdraw rest d = _
      rcases List.mem_cons.1 hd with h | h
      · subst h
        have hnr : d ∉ rest := (List.nodup_cons.1 hnd).1
        rw [collectTick_of_not_mem _ _ _ _ _ hnr, Function.update_same]
      · have hne : d ≠ dev := by
          intro he
          exact (List.nodup_cons.1 hnd).1 (he ▸ h)
        rw [ih _ (List.nodup_cons.1 hnd).2 h, Function.update_noteq hne]

/-- C6: the metric read sums the first two numeric tokens of the device's
pseudo-file; a missing file, fewer than two tokens, or an unparsable token
yields 0 instead of an error; and in the collect pass each device's
sampler is updated exactly once from that device's own content, so a
failing read for one device leaves every other device's sampler exactly
as its own read dictates. -/
theorem metric_read_spec :
    (∀ s p0 p1 rest a b, pySplit s = p0 :: p1 :: rest → pyInt p0 = some a →
      pyInt p1 = some b → get_inflight (some s) = a + b) ∧
    get_inflight none = 0 ∧
    (∀ s, pySplit s = [] → get_inflight (some s) = 0) ∧
    (∀ s p0, pySplit s = [p0] → get_inflight (some s) = 0) ∧
    (∀ s p0 p1 rest, pySplit s = p0 :: p1 :: rest →
      pyInt p0 = none ∨ pyInt p1 = none → get_inflight (some s) = 0) ∧
    (∀ samplers contents jdraw d, d ∈ DEVICES →
      collectTick samplers contents jdraw DEVICES d =
        (samplers d).add (get_inflight (contents d)) (jdraw d)) ∧
    (∀ samplers contents jdraw d, d ∉ DEVICES →
      collectTick samplers contents jdraw DEVICES d = samplers d) := by
  refine ⟨?_, rfl, ?_, ?_, ?_, ?_, ?_⟩
  · intro s p0 p1 rest a b hsplit h0 h1
    simp only [get_inflight, hsplit, h0, h1]
  · intro s hsplit
    simp only [get_inflight, hsplit]
  · intro s p0 hsplit
    simp only [get_inflight, hsplit]
  · intro s p0 p1 rest hsplit hnone
    rcases hnone with h | h
    · simp only [get_inflight, hsplit, h]
    · rcases hp : pyInt p0 with _ | a <;>
        simp only [get_inflight, hsplit, hp, h]
  · intro samplers contents jdraw d hd
    exact collectTick_of_mem samplers contents jdraw DEVICES d (by decide) hd
  · intro samplers contents jdraw d hd
    exact collectTick_of_not_mem samplers contents jdraw DEVICES d hd

/-- C6 witness: content `"4 2"` parses to 4 + 2 for device `sdc` inside
the collect pass over the real device list, while `sdx` (not monitored)
is untouched. -/
theorem metric_read_spec_witness :
    pySplit ['4', ' ', '2'] = [['4'], ['2']] ∧
    pyInt ['4'] = some 4 ∧ pyInt ['2'] = some 2 ∧
    get_inflight (some ['4', ' ', '2']) = 4 + 2 ∧
    "sdc" ∈ DEVICES ∧ "sdx" ∉ DEVICES ∧
    collectTick (fun _ => ReservoirSampler.mkInit ℤ 3)
        (fun _ => some ['4', ' ', '2']) (fun _ => 0) DEVICES "sdc" =
      ((fun _ => ReservoirSampler.mkInit ℤ 3) "sdc").add
        (get_inflight ((fun _ => some ['4', ' ', '2']) "sdc"))
        ((fun _ => (0 : ℕ)) "sdc") ∧
    collectTick (fun _ => ReservoirSampler.mkInit ℤ 3)
        (fun _ => some ['4', ' ', '2']) (fun _ => 0) DEVICES "sdx" =
      (fun _ => ReservoirSampler.mkInit ℤ 3) "sdx" :=
  ⟨by decide, by decide, by decide,
    metric_read_spec.1 ['4', ' ', '2'] ['4'] ['2'] [] 4 2 (by decide)
      (by decide) (by decide),
    by decide, by decide,
    metric_read_spec.2.2.2.2.2.1 _ _ _ "sdc" (by decide),
    metric_read_spec.2.2.2.2.2.2 _ _ _ "sdx" (by decide)⟩

/-- `make_bar(current, p90, width)` from the source: one character per
position `i ∈ [1, width]`, `'█'` when `i ≤ current`, else `'░'` when
`i ≤ p90`, else `'-'`. -/
def make_bar (current p90 : ℤ) (width : ℕ) : List Char :=
  (List.range' 1 width).map
    (fun (i : ℕ) =>
      if (i : ℤ) ≤ current then '█' else if (i : ℤ) ≤ p90 then '░' else '-')

/-- C7: for `current ≤ p90 ≤ width` the bar is `current` filled cells,
shadow up to position `p90`, and the rest empty (negative inputs clamp to
zero cells via `toNat`); and for all inputs whatsoever the bar length is
exactly the scale `width`. -/
theorem make_bar_encoding (current p90 : ℤ) (width : ℕ)
    (h1 : current ≤ p90) (h2 : p90 ≤ (width : ℤ)) :
    make_bar current p90 width =
      List.replicate current.toNat '█' ++
      (List.replicate (p90.toNat - current.toNat) '░' ++
        List.replicate (width - p90.toNat) '-') ∧
    ∀ (c q : ℤ) (w : ℕ), (make_bar c q w).length = w := by
  constructor
  · have hcp : current.toNat ≤ p90.toNat := by omega
    have hpw : p90.toNat ≤ width := by omega
    have hsplit : List.range' 1 width =
        List.range' 1 current.toNat ++
          (List.range' (1 + current.toNat) (p90.toNat - current.toNat) ++
            List.range' (1 + current.toNat + (p90.toNat - current.toNat))
              (width - p90.toNat)) := by
      rw [List.range'_append_1, List.range'_append_1]
      congr 1
      omega
    rw [make_bar, hsplit, List.map_append, List.map_append]
    congr 1
    · have : ∀ i ∈ List.range' 1 current.toNat,
          (if (i : ℤ) ≤ current then '█'
            else if (i : ℤ) ≤ p90 then '░' else '-') =
          (fun _ => '█') i := by
        intro i hi
        rcases List.mem_range'.1 hi with ⟨k, hk, rfl⟩
        have hc : ((1 + 1 * k : ℕ) : ℤ) ≤ current := by
          push_cast
          omega
        dsimp only
        rw [if_pos hc]
      rw [List.map_congr_left this, List.map_const', List.length_range']
    congr 1
    · have : ∀ i ∈ List.range' (1 + current.toNat) (p90.toNat - current.toNat),
          (if (i : ℤ) ≤ current then '█'
            else if (i : ℤ) ≤ p90 then '░' else '-') =
          (fun _ => '░') i := by
        intro i hi
        rcases List.mem_range'.1 hi with ⟨k, hk, rfl⟩
        have hc : ¬ ((1 + current.toNat + 1 * k : ℕ) : ℤ) ≤ current := by
          push_cast
          omega
        have hp : ((1 + current.toNat + 1 * k : ℕ) : ℤ) ≤ p90 := by
          push_cast
          omega
        dsimp only
        rw [if_neg hc, if_pos hp]
      rw [List.map_congr_left this, List.map_const', List.length_range']
    · have : ∀ i ∈ List.range' (1 + current.toNat + (p90.toNat - current.toNat))
          (width - p90.toNat),
          (if (i : ℤ) ≤ current then '█'
            else if (i : ℤ) ≤ p90 then '░' else '-') =
          (fun _ => '-') i := by
        intro i hi
        rcases List.mem_range'.1 hi with ⟨k, hk, rfl⟩
        have hc : ¬ ((1 + current.toNat + (p90.toNat - current.toNat) + 1 * k : ℕ) : ℤ)
            ≤ current := by
          push_cast
          omega
        have hp : ¬ ((1 + current.toNat + (p90.toNat - current.toNat) + 1 * k : ℕ) : ℤ)
            ≤ p90 := by
          push_cast
          omega
        dsimp only
        rw [if_neg hc, if_neg hp]
      rw [List.map_congr_left this, List.map_const', List.length_range']
  · intro c q w
    simp [make_bar]

/-- C7 witness: `current = 2`, `p90 = 4`, `width = 6`. -/
theorem make_bar_encoding_witness :
    (2 : ℤ) ≤ 4 ∧ (4 : ℤ) ≤ ((6 : ℕ) : ℤ) ∧
    (make_bar 2 4 6 =
      List.replicate (2 : ℤ).toNat '█' ++
      (List.replicate ((4 : ℤ).toNat - (2 : ℤ).toNat) '░' ++
        List.replicate (6 - (4 : ℤ).toNat) '-') ∧
    ∀ (c q : ℤ) (w : ℕ), (make_bar c q w).length = w) :=
  ⟨by norm_num, by norm_num, make_bar_encoding 2 4 6 (by norm_num) (by norm_num)⟩

/-- Outcome of the startup phase of `main`. -/
inductive StartupOutcome
  | entersLoop
  | exitsFailure
  deriving DecidableEq, Repr

/-- The startup phase of `main` before `while True:`, parameterised by the
configuration that the source hardcodes (`DEVICES`, `SAMPLE_INTERVAL`,
`RESERVOIR_SIZE`): print the two banner lines, `time.sleep(0.5)`, then
enter the loop.  The source contains no configuration check of any kind
between start and the loop, so the outcome is `entersLoop` for every
configuration. -/
def mainStartup (devices : List String) (interval : ℚ) (capacity : ℕ) :
    List String × StartupOutcome :=
  (["USB Queue Monitor (P90) - Ctrl+C to stop",
    "Building initial sample set..."], StartupOutcome.entersLoop)

/-- C8 counterexample: an invalid configuration — the empty device set,
zero capacity, zero interval — is not detected: startup still enters the
sampling loop rather than exiting with failure beforehand. -/
theorem mainStartup_skips_validation :
    (mainStartup [] 0 0).2 = StartupOutcome.entersLoop ∧
    ¬ (mainStartup [] 0 0).2 = StartupOutcome.exitsFailure :=
  ⟨rfl, fun h => StartupOutcome.noConfusion h⟩

/-- C8 amended: the program performs no startup validation at all — every
configuration, invalid ones included, enters the sampling loop — and the
hardcoded configuration is valid (non-empty device set, positive capacity,
positive interval), so the shipped program enters the loop. -/
theorem mainStartup_always_enters_loop :
    (∀ (devices : List String) (interval : ℚ) (capacity : ℕ),
      (mainStartup devices interval capacity).2 = StartupOutcome.entersLoop) ∧
    DEVICES ≠ [] ∧ 0 < RESERVOIR_SIZE ∧ 0 < SAMPLE_INTERVAL :=
  ⟨fun _ _ _ => rfl, by decide, by decide, by norm_num [SAMPLE_INTERVAL]⟩

/-- The uniform space of draw sequences for a stream of `n` observations:
the entry at position `k` (0-based) is the value `random.randint(0, k)`
returns at the step where `count` becomes `k + 1` — `k + 1` equiprobable
choices, the draw range the source uses after its increment.  The source
only draws in the replacement branch; the coordinates of fill-phase steps
are carried but ignored by `add`, which rescales the uniform space without
changing any event's probability. -/
def draws : ℕ → Finset (List ℕ)
  | 0 => {[]}
  | n + 1 => ((draws n) ×ˢ Finset.range (n + 1)).image fun p => p.1 ++ [p.2]

/-- The reservoir after feeding observations `0, …, n-1` — identified by
their stream ordinal, which is sound because `add` never inspects the
value — under draw sequence `js`. -/
def resAfter (C n : ℕ) (js : List ℕ) : List ℕ :=
  ((ReservoirSampler.mkInit ℕ C).run ((List.range n).zip js)).reservoir

/-- The draw sequences after which observation `i` is present in the
sample sequence at inspection time. -/
def survivors (C n i : ℕ) : Finset (List ℕ) :=
  (draws n).filter (fun js => i ∈ resAfter C n js)

theorem length_of_mem_draws : ∀ {n : ℕ} {js : List ℕ}, js ∈ draws n →
    js.length = n := by
  intro n
  induction n with
  | zero =>
      intro js h
      rw [draws, Finset.mem_singleton] at h
      subst h
      rfl
  | succ n ih =>
      intro js h
      rw [draws, Finset.mem_image] at h
      obtain ⟨p, hp, rfl⟩ := h
      have := ih (Finset.mem_product.1 hp).1
      simp [this]

theorem concat_inj {a b : List ℕ} {x y : ℕ} (h : a ++ [x] = b ++ [y]) :
    a = b ∧ x = y := by
  have := List.append_inj' h rfl
  refine ⟨this.1, ?_⟩
  have h2 := this.2
  injection h2

theorem card_draws_succ (n : ℕ) :
    (draws (n + 1)).card = (draws n).card * (n + 1) := by
  rw [draws]
  rw [Finset.card_image_of_injOn]
  · rw [Finset.card_product, Finset.card_range]
  · intro p _ q _ h
    obtain ⟨h1, h2⟩ := concat_inj h
    exact Prod.ext h1 h2

theorem card_draws (n : ℕ) : (draws n).card = n.factorial := by
  induction n with
  | zero => rfl
  | succ n ih => rw [card_draws_succ, ih, Nat.factorial_succ, mul_comm]

theorem resAfter_succ (C n : ℕ) (js : List ℕ) (j : ℕ) (hlen : js.length = n) :
    resAfter C (n + 1) (js ++ [j]) =
      (((ReservoirSampler.mkInit ℕ C).run ((List.range n).zip js)).add n j).reservoir := by
  unfold resAfter
  rw [List.range_succ, List.zip_append (by simp [hlen]),
    ReservoirSampler.run_append]
  rfl

/-- Fill phase: with `n ≤ C` observations the reservoir is `range n`. -/
theorem resAfter_of_le (C n : ℕ) (js : List ℕ) (hn : n ≤ C)
    (hlen : js.length = n) : resAfter C n js = List.range n := by
  have hle : (List.range n).length ≤ js.length := by
    rw [List.length_range, hlen]
  have hroom : (ReservoirSampler.mkInit ℕ C).reservoir.length +
      ((List.range n).zip js).length ≤ (ReservoirSampler.mkInit ℕ C).size := by
    simpa [ReservoirSampler.mkInit, hlen] using hn
  unfold resAfter
  rw [ReservoirSampler.run_reservoir_of_room _ _ hroom,
    List.map_fst_zip _ _ hle]
  simp [ReservoirSampler.mkInit]

/-- Structural facts about a reached reservoir: its length is
`min n C`, it has no duplicate ordinals, and it only holds ordinals of
observations already seen. -/
theorem resAfter_facts (C : ℕ) : ∀ (n : ℕ) (js : List ℕ),
    js.length = n →
    (resAfter C n js).length = min n C ∧ (resAfter C n js).Nodup ∧
      ∀ x ∈ resAfter C n js, x < n := by
  intro n
  induction n with
  | zero =>
      intro js _
      refine ⟨?_, ?_, ?_⟩ <;> simp [resAfter, ReservoirSampler.mkInit,
        ReservoirSampler.run]
  | succ n ih =>
      intro js hlen
      have hne : js ≠ [] := by
        intro h
        rw [h] at hlen
        simp at hlen
      have hdec : js.dropLast ++ [js.getLast hne] = js :=
        List.dropLast_append_getLast hne
      have hklen : js.dropLast.length = n := by
        rw [List.length_dropLast, hlen]
        omega
      obtain ⟨ihl, ihnd, ihlt⟩ := ih js.dropLast hklen
      set l := resAfter C n js.dropLast with hl
      have hnotmem : n ∉ l := fun h => lt_irrefl n (ihlt n h)
      have hstate : resAfter C (n + 1) js =
          (((ReservoirSampler.mkInit ℕ C).run
            ((List.range n).zip js.dropLast)).add n (js.getLast hne)).reservoir := by
        conv_lhs => rw [← hdec]
        exact resAfter_succ C n js.dropLast (js.getLast hne) hklen
      have hres : ((ReservoirSampler.mkInit ℕ C).run
          ((List.range n).zip js.dropLast)).reservoir = l := rfl
      have hsize : ((ReservoirSampler.mkInit ℕ C).run
          ((List.range n).zip js.dropLast)).size = C := by
        rw [ReservoirSampler.size_run]
        rfl
      rw [hstate]
      unfold ReservoirSampler.add
      rw [hres, hsize, ihl]
      by_cases hlt : min n C < C
      · rw [if_pos hlt]
        have hnC : n < C := by omega
        refine ⟨by simp; omega, ?_, ?_⟩
        · rw [(List.perm_append_singleton n l).nodup_iff, List.nodup_cons]
          exact ⟨hnotmem, ihnd⟩
        · intro x hx
          rcases List.mem_append.1 hx with h | h
          · exact Nat.lt_succ_of_lt (ihlt x h)
          · simp at h
            omega
      · rw [if_neg hlt]
        have hCn : C ≤ n := by omega
        by_cases hj : js.getLast hne < C
        · rw [if_pos hj]
          refine ⟨by simp [ihl]; omega, ihnd.set hnotmem, ?_⟩
          intro x hx
          rcases List.mem_or_eq_of_mem_set hx with h | h
          · exact Nat.lt_succ_of_lt (ihlt x h)
          · omega
        · rw [if_neg hj]
          refine ⟨by rw [ihl]; omega, ihnd, fun x hx => Nat.lt_succ_of_lt (ihlt x hx)⟩

/-- Once the reservoir is full (`C ≤ n`), a further step replaces slot `j`
with the new ordinal when `j < C` and leaves the reservoir unchanged
otherwise — the two non-append branches of `add`. -/
theorem resAfter_succ_full (C n : ℕ) (js : List ℕ) (j : ℕ)
    (hCn : C ≤ n) (hlen : js.length = n) :
    resAfter C (n + 1) (js ++ [j]) =
      if j < C then (resAfter C n js).set j n else resAfter C n js := by
  rw [resAfter_succ C n js j hlen]
  have hfacts := resAfter_facts C n js hlen
  have hres : ((ReservoirSampler.mkInit ℕ C).run
      ((List.range n).zip js)).reservoir = resAfter C n js := rfl
  have hsize : ((ReservoirSampler.mkInit ℕ C).run
      ((List.range n).zip js)).size = C := by
    rw [ReservoirSampler.size_run]
    rfl
  have hlenres : (resAfter C n js).length = C := by
    rw [hfacts.1]
    omega
  unfold ReservoirSampler.add
  rw [hres, hsize, hlenres, if_neg (lt_irrefl C)]
  by_cases hj : j < C
  · rw [if_pos hj, if_pos hj]
  · rw [if_neg hj, if_neg hj]

/-- Counting the next draw for an ordinal currently in the reservoir: of
the `n + 1` equiprobable draws, exactly `n` keep it — every draw except
the one hitting its slot. -/
theorem card_keep (C n : ℕ) (js : List ℕ) (i : ℕ) (hC : 0 < C)
    (hCn : C ≤ n) (hlen : js.length = n) (hi : i ∈ resAfter C n js)
    (hin : i < n) :
    ((Finset.range (n + 1)).filter
      (fun j => i ∈ resAfter C (n + 1) (js ++ [j]))).card = n := by
  obtain ⟨hlenres, hnd, hlt⟩ := resAfter_facts C n js hlen
  set l := resAfter C n js with hl
  have hlC : l.length = C := by rw [hlenres]; omega
  obtain ⟨p, hp, hpi⟩ := List.mem_iff_getElem.1 hi
  have hfilter : (Finset.range (n + 1)).filter
      (fun j => i ∈ resAfter C (n + 1) (js ++ [j])) =
      (Finset.range (n + 1)).erase p := by
    ext j
    simp only [Finset.mem_filter, Finset.mem_erase, Finset.mem_range]
    constructor
    · rintro ⟨hjn, hmem⟩
      refine ⟨?_, hjn⟩
      rw [resAfter_succ_full C n js j hCn hlen, ← hl] at hmem
      by_cases hj : j < C
      · rw [if_pos hj] at hmem
        obtain ⟨q, hq, hqi⟩ := List.mem_iff_getElem.1 hmem
        rw [List.length_set] at hq
        rw [List.getElem_set] at hqi
        by_cases hjq : j = q
        · rw [if_pos hjq] at hqi
          omega
        · rw [if_neg hjq] at hqi
          have : q = p := hnd.getElem_inj_iff.1 (hqi.trans hpi.symm)
          omega
      · rw [if_neg hj] at hmem
        intro hjp
        rw [hjp] at hj
        rw [hlC] at hp
        exact hj hp
    · rintro ⟨hjp, hjn⟩
      refine ⟨hjn, ?_⟩
      rw [resAfter_succ_full C n js j hCn hlen, ← hl]
      by_cases hj : j < C
      · rw [if_pos hj]
        refine List.mem_iff_getElem.2 ⟨p, by rw [List.length_set]; exact hp, ?_⟩
        rw [List.getElem_set, if_neg hjp]
        exact hpi
      · rw [if_neg hj]
        exact hi
  rw [hfilter, Finset.card_erase_of_mem]
  · simp
  · rw [Finset.mem_range]
    rw [hlC] at hp
    omega

/-- An ordinal that is already out of the reservoir stays out: no draw
brings it back. -/
theorem card_dead (C n : ℕ) (js : List ℕ) (i : ℕ)
    (hCn : C ≤ n) (hlen : js.length = n) (hi : i ∉ resAfter C n js)
    (hin : i ≠ n) :
    ((Finset.range (n + 1)).filter
      (fun j => i ∈ resAfter C (n + 1) (js ++ [j]))).card = 0 := by
  rw [Finset.card_eq_zero]
  apply Finset.filter_false_of_mem
  intro j _
  rw [resAfter_succ_full C n js j hCn hlen]
  by_cases hj : j < C
  · rw [if_pos hj]
    intro hmem
    rcases List.mem_or_eq_of_mem_set hmem with h | h
    · exact hi h
    · exact hin h
  · rw [if_neg hj]
    exact hi

/-- The newly observed ordinal `n` enters the reservoir for exactly the
`C` draws that hit a slot. -/
theorem card_new (C n : ℕ) (js : List ℕ) (hC : 0 < C)
    (hCn : C ≤ n) (hlen : js.length = n) :
    ((Finset.range (n + 1)).filter
      (fun j => n ∈ resAfter C (n + 1) (js ++ [j]))).card = C := by
  obtain ⟨hlenres, hnd, hlt⟩ := resAfter_facts C n js hlen
  set l := resAfter C n js with hl
  have hlC : l.length = C := by rw [hlenres]; omega
  have hnl : n ∉ l := fun h => lt_irrefl n (hlt n h)
  have hfilter : (Finset.range (n + 1)).filter
      (fun j => n ∈ resAfter C (n + 1) (js ++ [j])) = Finset.range C := by
    ext j
    simp only [Finset.mem_filter, Finset.mem_range]
    constructor
    · rintro ⟨hjn, hmem⟩
      rw [resAfter_succ_full C n js j hCn hlen, ← hl] at hmem
      by_cases hj : j < C
      · exact hj
      · rw [if_neg hj] at hmem
        exact absurd hmem hnl
    · intro hj
      refine ⟨by omega, ?_⟩
      rw [resAfter_succ_full C n js j hCn hlen, ← hl, if_pos hj]
      refine List.mem_iff_getElem.2 ⟨j, by rw [List.length_set]; omega, ?_⟩
      rw [List.getElem_set, if_pos rfl]
  rw [hfilter, Finset.card_range]

/-- Fibre decomposition: the surviving draw sequences of length `n + 1`
are counted by summing, over each length-`n` prefix, the number of final
draws that leave observation `i` present. -/
theorem survivors_succ_card (C n i : ℕ) :
    (survivors C (n + 1) i).card =
      ∑ js ∈ draws n, ((Finset.range (n + 1)).filter
        (fun j => i ∈ resAfter C (n + 1) (js ++ [j]))).card := by
  unfold survivors
  rw [draws, Finset.filter_image,
    Finset.card_image_of_injOn (fun p _ q _ h => by
      obtain ⟨h1, h2⟩ := concat_inj h
      exact Prod.ext h1 h2),
    Finset.card_filter, Finset.sum_product]
  exact Finset.sum_congr rfl (fun js _ => (Finset.card_filter _ _).symm)

/-- The counting heart of C3: for capacity `0 < C` and `C ≤ n`
observations, each observation `i` of the stream is present in the
reservoir after exactly the fraction `C / n` of the `n!`-element uniform
draw space. -/
theorem survivors_card_mul (C : ℕ) (hC : 0 < C) (n : ℕ) (hn : C ≤ n) :
    ∀ i, i < n → (survivors C n i).card * n = C * (draws n).card := by
  induction n, hn using Nat.le_induction with
  | base =>
      intro i hi
      have hs : survivors C C i = draws C := by
        unfold survivors
        apply Finset.filter_true_of_mem
        intro js hjs
        rw [resAfter_of_le C C js le_rfl (length_of_mem_draws hjs)]
        exact List.mem_range.2 hi
      rw [hs, mul_comm]
  | succ n hn ih =>
      intro i hi
      by_cases hin : i = n
      · rw [hin, survivors_succ_card]
        have hsum : ∑ js ∈ draws n, ((Finset.range (n + 1)).filter
            (fun j => n ∈ resAfter C (n + 1) (js ++ [j]))).card =
            (draws n).card * C :=
          Finset.sum_const_nat (fun js hjs =>
            card_new C n js hC hn (length_of_mem_draws hjs))
        rw [hsum, card_draws_succ]
        ring
      · have hilt : i < n := by omega
        have h1 : ∑ js ∈ (draws n).filter (fun js => i ∈ resAfter C n js),
            ((Finset.range (n + 1)).filter
              (fun j => i ∈ resAfter C (n + 1) (js ++ [j]))).card =
            (survivors C n i).card * n := by
          apply Finset.sum_const_nat
          intro js hjs
          obtain ⟨hd, hmem⟩ := Finset.mem_filter.1 hjs
          exact card_keep C n js i hC hn (length_of_mem_draws hd) hmem hilt
        have h2 : ∑ js ∈ (draws n).filter (fun js => ¬ i ∈ resAfter C n js),
            ((Finset.range (n + 1)).filter
              (fun j => i ∈ resAfter C (n + 1) (js ++ [j]))).card = 0 := by
          apply Finset.sum_eq_zero
          intro js hjs
          obtain ⟨hd, hmem⟩ := Finset.mem_filter.1 hjs
          exact card_dead C n js i hn (length_of_mem_draws hd) hmem hin
        have hsplit := Finset.sum_filter_add_sum_filter_not (draws n)
          (fun js => i ∈ resAfter C n js)
          (fun js => ((Finset.range (n + 1)).filter
            (fun j => i ∈ resAfter C (n + 1) (js ++ [j]))).card)
        rw [survivors_succ_card, ← hsplit, h1, h2, Nat.add_zero,
          card_draws_succ]
        have := ih i hilt
        calc (survivors C n i).card * n * (n + 1)
            = (survivors C n i).card * n * (n + 1) := rfl
          _ = C * (draws n).card * (n + 1) := by rw [this]
          _ = C * ((draws n).card * (n + 1)) := by ring

/-- C3: uniform reservoir sampling.  With capacity `C > 0` and a stream of
`N > C` observations fed in order, every observation of the full stream is
present in the sample sequence with probability exactly `C / N`, measured
over the uniform space of the sampler's `random.randint` draw sequences:
the surviving fraction of the `N!` draw sequences is `C / N`, both as a
counting identity and as an identity of rationals. -/
theorem uniform_presence_probability (C N i : ℕ) (hC : 0 < C)
    (hN : C < N) (hi : i < N) :
    (survivors C N i).card * N = C * (draws N).card ∧
    ((survivors C N i).card : ℚ) / ((draws N).card : ℚ) =
      (C : ℚ) / (N : ℚ) := by
  have h1 := survivors_card_mul C hC N hN.le i hi
  refine ⟨h1, ?_⟩
  have hdpos : 0 < (draws N).card := by
    rw [card_draws]
    exact N.factorial_pos
  have hN0 : 0 < N := by omega
  rw [div_eq_div_iff (by exact_mod_cast hdpos.ne.symm) (by exact_mod_cast hN0.ne.symm)]
  exact_mod_cast h1

/-- C3 witness: `C = 1`, `N = 2`, observation 0: of the two draw
sequences, exactly one keeps observation 0, so its presence probability is
`1 / 2`. -/
theorem uniform_presence_probability_witness :
    0 < 1 ∧ 1 < 2 ∧ 0 < 2 ∧
    ((survivors 1 2 0).card * 2 = 1 * (draws 2).card ∧
      ((survivors 1 2 0).card : ℚ) / ((draws 2).card : ℚ) =
        ((1 : ℕ) : ℚ) / ((2 : ℕ) : ℚ)) :=
  ⟨by decide, by decide, by decide,
    uniform_presence_probability 1 2 0 (by decide) (by decide) (by decide)⟩

end UsbQueueMonitor
